import Mathlib

/-!
Verification of `misc/filter-golang-stack.py` (the Trace Chunk Filter).

The script reads its input with `readlines()` (so every line except possibly
the last keeps its trailing newline), locates the first line starting with
`PC=`, segments the following body into chunks headed by `main.main()` /
`goroutine...` lines, filters the chunks by their second line, and re-emits a
report followed by the raw tail from the end-marker (register dump) line.

Lines are modelled as `List Char`; the whole input is a `List (List Char)`.

A note on the source's scan loop: in Python, the assignment `i = j` inside
`for i in range(...)` does not affect the iteration, so the outer loop visits
every index of the body; a fresh inner scan is started at every index whose
line satisfies `is_chunk`, and the global `end` keeps the index assigned by
the temporally last inner scan that stopped on an `is_end` line.  The
structural recursion `chunk_scan` below embeds exactly that behaviour:
processing `line :: rest` runs the inner scan for `line` (if it is a chunk
header) and combines it with the scan of `rest`, whose `end` assignment,
being later in time, takes precedence.
-/

namespace FilterStack

/-- Source: `is_chunk(line)` — a chunk-header line is exactly the literal
string `main.main()` (note: no trailing newline) or a line starting with
`goroutine`. -/
def is_chunk (line : List Char) : Bool :=
  line == "main.main()".toList || "goroutine".toList.isPrefixOf line

/-- Source: the list `rx` of register names used by `is_end`. -/
def rx : List (List Char) :=
  ["rax".toList, "rbx".toList, "rcx".toList, "rdx".toList, "rdi".toList,
   "rsi".toList, "rbp".toList, "rsp".toList, "r8".toList, "r9".toList,
   "r10".toList, "r11".toList, "r12".toList, "r13".toList, "r14".toList,
   "r15".toList, "rip".toList, "rflags".toList, "cs".toList, "fs".toList,
   "gs".toList]

/-- Source: `is_end(line)` — true when the line starts with a register name
followed by a space. -/
def is_end (line : List Char) : Bool :=
  rx.any (fun x => (x ++ " ".toList).isPrefixOf line)

/-- Boundary predicate of the inner scan: `is_chunk(jline) or is_end(jline)`. -/
def bdy (line : List Char) : Bool :=
  is_chunk line || is_end line

/-- Python's `chunk.split("\n")`: split on every newline; separators are
dropped; a trailing newline yields a final empty piece, and the empty string
splits to `[""]`. -/
def splitNl : List Char → List (List Char)
  | [] => [[]]
  | c :: rest =>
    if c = '\n' then [] :: splitNl rest
    else
      match splitNl rest with
      | [] => [[c]]
      | p :: ps => (c :: p) :: ps

/-- Source: `filter_chunk(chunk)` — split the chunk on newlines, reject
chunks of fewer than 2 lines, then decide from the second line
(`package_line`) by the ordered deny rules. -/
def filter_chunk (chunk : List Char) : Bool :=
  let lines := splitNl chunk
  if lines.length < 2 then
    false
  else
    let package_line := lines.getD 1 []
    if "github.com/purpleidea/mgmt/vendor/".toList.isPrefixOf package_line then
      false
    else if "github.com/".toList.isPrefixOf package_line &&
        !("github.com/purpleidea/mgmt/".toList.isPrefixOf package_line) then
      false
    else if "internal/poll".toList.isPrefixOf package_line then
      false
    else if "context.propagateCancel".toList.isPrefixOf package_line then
      false
    else if "runtime.gopark".toList.isPrefixOf package_line then
      false
    else if "runtime.futex".toList.isPrefixOf package_line then
      false
    else if "os/signal.signal_recv".toList.isPrefixOf package_line then
      false
    else
      true

/-- Source: the start-locator loop — index of the first line starting with
`PC=`, `none` when there is no such line (`start == -1`). -/
def find_start : List (List Char) → Option Nat
  | [] => none
  | l :: rest =>
    if "PC=".toList.isPrefixOf l then some 0
    else (find_start rest).map (· + 1)

/-- Source: the inner scan `for j in range(i+1, len(lines))`.  Scanning the
suffix after the header with the accumulated chunk text, it returns the
completed chunk together with the offset of the boundary line (relative to
the suffix), or `none` when the suffix is exhausted (the trailing partial
chunk is dropped). -/
def chunk_inner : List (List Char) → List Char → Option (List Char × Nat)
  | [], _ => none
  | jline :: rest, chunk =>
    if is_chunk jline || is_end jline then some (chunk, 0)
    else (chunk_inner rest (chunk ++ jline)).map (fun p => (p.1, p.2 + 1))

/-- Source: the outer scan `for i in range(start+1, len(lines))` over the
body, producing the accumulated chunk list and the final value of the global
`end` (as an offset into the body), `none` when `end` was never assigned.
Processing `line :: rest`: when `line` is a chunk header and its inner scan
finds a boundary at offset `k` of `rest`, the chunk is recorded and `end` is
set to `k+1` if that boundary is an `is_end` line — unless the scan of
`rest` (temporally later) assigns `end` itself, which takes precedence. -/
def chunk_scan : List (List Char) → List (List Char) × Option Nat
  | [] => ([], none)
  | line :: rest =>
    if is_chunk line then
      match chunk_inner rest line with
      | some (chunk, k) =>
        (chunk :: (chunk_scan rest).1,
         match (chunk_scan rest).2 with
         | some m => some (m + 1)
         | none => if is_end (rest.getD k []) then some (k + 1) else none)
      | none => ((chunk_scan rest).1, (chunk_scan rest).2.map (· + 1))
    else ((chunk_scan rest).1, (chunk_scan rest).2.map (· + 1))

/-- One item of the program's standard output, in emission order: the
`read:` count, the `starts at line:` report, the `found %d chunks` report,
the per-kept-chunk label/body/blank-line triple, the `got %d filtered
chunks` report, the `ends at line:` report, and the verbatim tail lines. -/
inductive Out where
  | readCount : Nat → Out
  | startsAt : Nat → Out
  | foundChunks : Nat → Out
  | chunkHeader : Nat → Out
  | chunkBody : List Char → Out
  | blank : Out
  | gotFiltered : Nat → Out
  | endsAt : Nat → Out
  | tailLine : List Char → Out
deriving DecidableEq

/-- Observable result of one run: the standard-output items, the lines
written to standard error, and the process exit status. -/
structure RunResult where
  stdout : List Out
  stderr : List (List Char)
  exitCode : Nat
deriving DecidableEq

/-- Source: the message printed to stderr when no `PC=` line exists. -/
def noStartMsg : List Char :=
  "could not find program start, looking for PC=???".toList

/-- Marker for the Python `NameError` raised at `print("ends at line: ...")`
when the global `end` was never assigned (an uncaught exception: traceback on
stderr, exit status 1). -/
def nameErrorMsg : List Char :=
  "NameError: name end is not defined".toList

/-- Source: the whole program.  Reports the line count; fails (stderr, exit
1) when no start marker exists; otherwise scans the body after the start
line, prints the chunk report with the kept chunks (original indices), and —
if `end` was assigned — the end report and the tail lines verbatim; when
`end` was never assigned the final report raises `NameError` (exit 1). -/
def run (lines : List (List Char)) : RunResult :=
  match find_start lines with
  | none =>
    { stdout := [Out.readCount lines.length]
      stderr := [noStartMsg]
      exitCode := 1 }
  | some start =>
    let body := lines.drop (start + 1)
    let chunks := (chunk_scan body).1
    let rep := (chunks.enum.filter (fun p => filter_chunk p.2)).flatMap
      (fun p => [Out.chunkHeader p.1, Out.chunkBody p.2, Out.blank])
    let count := (chunks.filter filter_chunk).length
    let pre := [Out.readCount lines.length, Out.startsAt (start + 1),
      Out.foundChunks chunks.length] ++ rep ++ [Out.gotFiltered count]
    match (chunk_scan body).2 with
    | none =>
      { stdout := pre
        stderr := [nameErrorMsg]
        exitCode := 1 }
    | some erel =>
      { stdout := pre ++ [Out.endsAt (start + 1 + erel + 1)] ++
          (lines.drop (start + 1 + erel)).map Out.tailLine
        stderr := []
        exitCode := 0 }

/-- The tail lines among the emitted standard-output items. -/
def tailOf (r : RunResult) : List (List Char) :=
  r.stdout.filterMap (fun o =>
    match o with
    | Out.tailLine l => some l
    | _ => none)

/-- The chunks the program keeps (prints): the scanned chunks that pass
`filter_chunk`; empty when there is no start marker. -/
def kept_chunks (lines : List (List Char)) : List (List Char) :=
  match find_start lines with
  | none => []
  | some start => ((chunk_scan (lines.drop (start + 1))).1).filter filter_chunk

/-- Split a character stream into its lines, each keeping its trailing
newline (the model of feeding printed chunk text back in as input lines,
exactly as `readlines` would split it). -/
def linesOf : List Char → List (List Char)
  | [] => []
  | c :: rest =>
    if c = '\n' then ['\n'] :: linesOf rest
    else
      match linesOf rest with
      | [] => [[c]]
      | l :: ls => (c :: l) :: ls

/-- A proper input line: some text without inner newlines, terminated by a
newline.  `readlines()` guarantees this for every line except the last. -/
def proper (l : List Char) : Prop :=
  ∃ w : List Char, l = w ++ ['\n'] ∧ '\n' ∉ w

/-- Re-wrap a list of chunk texts as program input: a synthetic start-marker
line, the chunks' lines, and a synthetic end-marker line. -/
def rewrap (cs : List (List Char)) : List (List Char) :=
  "PC=\n".toList :: (cs.flatMap linesOf ++ ["rax 0x0\n".toList])

/-- A chunk text that round-trips through line splitting as a well-formed
block: its lines reassemble to it, the first line is a chunk header, and no
later line is a boundary. -/
def wfChunk (c : List Char) : Prop :=
  (linesOf c).flatten = c ∧
  ∃ hd tl, linesOf c = hd :: tl ∧ is_chunk hd = true ∧ ∀ l ∈ tl, bdy l = false

/-- Spec notion used by claim C3: the index of the first end-marker line of
the body (`End marker: the first line, scanned forward from the body,
beginning with any of a fixed set of register-name tokens followed by a
space`). -/
def specFirstEnd (body : List (List Char)) : Option Nat :=
  body.findIdx? (fun l => is_end l)

/-- The five-line example input of the specification (section 8). -/
def exInput : List (List Char) :=
  ["header\n".toList, "PC=0x1\n".toList, "main.main()\n".toList,
   "github.com/purpleidea/mgmt/foo.go:1\n".toList, "rax 0x0\n".toList]

/-- An input whose body has a chunk, an end-marker line, then another chunk
and another end-marker line. -/
def twoEndInput : List (List Char) :=
  ["PC=0x1\n".toList, "goroutine 1 [running]:\n".toList, "x\n".toList,
   "rax 0x0\n".toList, "goroutine 2 [running]:\n".toList, "y\n".toList,
   "rbx 0x0\n".toList]

/-- An input whose body starts with a line that belongs to no chunk. -/
def gapInput : List (List Char) :=
  ["PC=0x1\n".toList, "x\n".toList, "goroutine 1 [running]:\n".toList,
   "y\n".toList, "rax 0x0\n".toList]

/-- An input with a start marker and no end-marker line at all. -/
def noEndInput : List (List Char) :=
  ["PC=0x1\n".toList]

/-- A well-formed input that runs to normal completion. -/
def okInput : List (List Char) :=
  ["PC=0x1\n".toList, "goroutine 1 [running]:\n".toList,
   "github.com/purpleidea/mgmt/foo.go:1\n".toList, "rax 0x0\n".toList]

/-- An input with no `PC=` line. -/
def noStartInput : List (List Char) :=
  ["header\n".toList]

/-- A chunk whose second line is inside the project module but under the
vendored-dependency path. -/
def vendorChunk : List Char :=
  "goroutine 1 [running]:\ngithub.com/purpleidea/mgmt/vendor/foo/foo.go:1\n".toList

/-! ### Helper lemmas -/

theorem is_end_nil : is_end [] = false := by decide

theorem find_start_eq_none (lines : List (List Char))
    (h : ∀ l ∈ lines, "PC=".toList.isPrefixOf l = false) :
    find_start lines = none := by
  induction lines with
  | nil => rfl
  | cons l rest ih =>
    simp only [find_start, h l (List.mem_cons_self l rest),
      ih (fun x hx => h x (List.mem_cons_of_mem l hx))]
    simp

theorem not_isPrefixOf_of_shorter (p s d : List Char)
    (hp : p.isPrefixOf s = true) (hlen : d.length ≤ p.length)
    (hd : d.isPrefixOf p = false) : d.isPrefixOf s = false := by
  by_contra hcon
  rw [Bool.not_eq_false] at hcon
  have hdp : d <+: p :=
    List.prefix_of_prefix_length_le (List.isPrefixOf_iff_prefix.mp hcon)
      (List.isPrefixOf_iff_prefix.mp hp) hlen
  rw [(List.isPrefixOf_iff_prefix.mpr hdp : d.isPrefixOf p = true)] at hd
  exact Bool.noConfusion hd

/-! ### Claim C1 -/

/-- C1 counterexample: a chunk whose second line begins with the project
prefix `github.com/purpleidea/mgmt/` but lies under the vendored-dependency
path is REJECTED by the filter, contradicting the claim that such chunks are
always kept. -/
theorem c1_counterexample :
    filter_chunk vendorChunk = false ∧
    2 ≤ (splitNl vendorChunk).length ∧
    "github.com/purpleidea/mgmt/".toList.isPrefixOf
      ((splitNl vendorChunk).getD 1 []) = true := by
  decide

/-- C1 (amended): for every chunk with at least 2 lines whose second line
begins with `github.com/purpleidea/mgmt/` and does NOT begin with
`github.com/purpleidea/mgmt/vendor/`, the filter keeps the chunk; the
project-own prefix overrides only the generic third-party `github.com/` deny
rule, while the vendor deny rule is evaluated first and rejects. -/
theorem c1_keeps_own_module (chunk : List Char)
    (h2 : 2 ≤ (splitNl chunk).length)
    (hm : "github.com/purpleidea/mgmt/".toList.isPrefixOf
      ((splitNl chunk).getD 1 []) = true)
    (hv : "github.com/purpleidea/mgmt/vendor/".toList.isPrefixOf
      ((splitNl chunk).getD 1 []) = false) :
    filter_chunk chunk = true := by
  have h3 := not_isPrefixOf_of_shorter _ _ "internal/poll".toList hm
    (by decide) (by decide)
  have h4 := not_isPrefixOf_of_shorter _ _ "context.propagateCancel".toList hm
    (by decide) (by decide)
  have h5 := not_isPrefixOf_of_shorter _ _ "runtime.gopark".toList hm
    (by decide) (by decide)
  have h6 := not_isPrefixOf_of_shorter _ _ "runtime.futex".toList hm
    (by decide) (by decide)
  have h7 := not_isPrefixOf_of_shorter _ _ "os/signal.signal_recv".toList hm
    (by decide) (by decide)
  have hlen : ¬ ((splitNl chunk).length < 2) := by omega
  simp only [filter_chunk]
  rw [if_neg hlen, hv, hm, h3, h4, h5, h6, h7]
  simp

/-- C1 witness: the amended theorem applied to a concrete project-owned
chunk. -/
theorem c1_witness :
    filter_chunk
      "goroutine 1 [running]:\ngithub.com/purpleidea/mgmt/foo.go:1\n".toList
      = true :=
  c1_keeps_own_module _ (by decide) (by decide) (by decide)

/-! ### Claim C9 -/

/-- C9: a line that keeps its trailing newline is a chunk header exactly when
it begins with `goroutine`; the literal test `line == "main.main()"` can only
succeed on an unterminated final line, so `main.main()\n` is never a header
while a bare `main.main()` is. -/
theorem c9_header_needs_unterminated :
    (∀ l : List Char, l.getLast? = some '\n' →
      is_chunk l = "goroutine".toList.isPrefixOf l) ∧
    is_chunk "main.main()\n".toList = false ∧
    is_chunk "main.main()".toList = true := by
  refine ⟨?_, by decide, by decide⟩
  intro l hl
  unfold is_chunk
  cases heq : l == "main.main()".toList with
  | true =>
    rw [eq_of_beq heq] at hl
    exact absurd hl (by decide)
  | false => simp

/-- C9 witness: the equivalence applied to a concrete newline-terminated
line. -/
theorem c9_witness :
    is_chunk "goroutine 7 [chan receive]:\n".toList =
      "goroutine".toList.isPrefixOf "goroutine 7 [chan receive]:\n".toList :=
  c9_header_needs_unterminated.1 _ (by decide)

/-! ### Claim C10 -/

/-- C10: the filter verdict depends only on the chunk's second line — two
chunks with at least 2 lines each and equal second lines get the same
boolean, whatever their other content. -/
theorem c10_second_line_determines (ca cb : List Char)
    (ha : 2 ≤ (splitNl ca).length) (hb : 2 ≤ (splitNl cb).length)
    (hab : (splitNl ca).getD 1 [] = (splitNl cb).getD 1 []) :
    filter_chunk ca = filter_chunk cb := by
  have hla : ¬ ((splitNl ca).length < 2) := by omega
  have hlb : ¬ ((splitNl cb).length < 2) := by omega
  simp only [filter_chunk, if_neg hla, if_neg hlb, hab]

/-- C10 witness: two chunks sharing a second line but nothing else get the
same verdict. -/
theorem c10_witness :
    filter_chunk "goroutine 1 [running]:\nruntime.gopark(0x1)\n".toList =
      filter_chunk "main.main()\nruntime.gopark(0x1)\nextra stuff\n".toList := by
  have h := c10_second_line_determines
    "goroutine 1 [running]:\nruntime.gopark(0x1)\n".toList
    "main.main()\nruntime.gopark(0x1)\nextra stuff\n".toList
    (by decide) (by decide) (by decide)
  exact h

/-! ### Claim C2 -/

/-- C2: evaluating the program on the specification's five-line example.
Because `readlines` keeps the terminator, `main.main()\n` fails the literal
`== "main.main()"` test, so NO chunk is found; with no chunk the global
`end` is never assigned and the final `ends at line:` report raises
`NameError` (exit status 1) — the example's promised chunk, end report and
tail never appear. -/
theorem c2_example_crashes :
    run exInput =
      { stdout := [Out.readCount 5, Out.startsAt 2, Out.foundChunks 0,
          Out.gotFiltered 0],
        stderr := [nameErrorMsg],
        exitCode := 1 } := by
  decide

/-! ### Claim C3 -/

/-- C3 counterexample: in `twoEndInput` the first end-marker line of the body
is at index 2, yet the scan keeps accumulating (`i = j` in a Python `range`
loop does not skip, and nothing stops the outer loop), records a second
chunk that begins after index 2, and ends up with end index 5 ≠ 2. -/
theorem c3_counterexample :
    specFirstEnd (twoEndInput.drop 1) = some 2 ∧
    (chunk_scan (twoEndInput.drop 1)).2 = some 5 ∧
    (chunk_scan (twoEndInput.drop 1)).1 =
      ["goroutine 1 [running]:\nx\n".toList,
       "goroutine 2 [running]:\ny\n".toList] := by
  decide

/-- C3 (amended): when an inner scan reaches an end-marker line its index is
recorded (overwriting any earlier value) and the current chunk is closed,
but the outer scan continues and may accumulate further chunks after it;
what holds of the recorded end-of-body index is that it is the index of an
end-marker line of the body (the last one so reached), not necessarily the
first. -/
theorem c3_end_is_end_marker (body : List (List Char)) (e : Nat)
    (h : (chunk_scan body).2 = some e) :
    e < body.length ∧ is_end (body.getD e []) = true := by
  induction body generalizing e with
  | nil => simp [chunk_scan] at h
  | cons line rest ih =>
    by_cases hc : is_chunk line = true
    · cases hinner : chunk_inner rest line with
      | none =>
        rw [chunk_scan, if_pos hc, hinner] at h
        obtain ⟨m, hm, hme⟩ := Option.map_eq_some'.mp h
        obtain ⟨h1, h2⟩ := ih m hm
        subst hme
        exact ⟨by simpa using Nat.succ_lt_succ h1, by simpa [List.getD_cons_succ] using h2⟩
      | some p =>
        obtain ⟨chunk, k⟩ := p
        rw [chunk_scan, if_pos hc, hinner] at h
        simp only at h
        cases hrest : (chunk_scan rest).2 with
        | some m =>
          rw [hrest] at h
          simp only [Option.some.injEq] at h
          obtain ⟨h1, h2⟩ := ih m hrest
          subst h
          exact ⟨by simpa using Nat.succ_lt_succ h1, by simpa [List.getD_cons_succ] using h2⟩
        | none =>
          rw [hrest] at h
          cases hend : is_end (rest.getD k []) with
          | false => rw [hend] at h; simp at h
          | true =>
            rw [hend] at h
            simp only [if_true, Option.some.injEq] at h
            subst h
            have hk : k < rest.length := by
              by_contra hk
              rw [List.getD_eq_default _ _ (Nat.le_of_not_lt hk)] at hend
              exact Bool.noConfusion (is_end_nil ▸ hend)
            exact ⟨by simpa using Nat.succ_lt_succ hk,
              by simpa [List.getD_cons_succ] using hend⟩
    · rw [chunk_scan, if_neg hc] at h
      obtain ⟨m, hm, hme⟩ := Option.map_eq_some'.mp h
      obtain ⟨h1, h2⟩ := ih m hm
      subst hme
      exact ⟨by simpa using Nat.succ_lt_succ h1, by simpa [List.getD_cons_succ] using h2⟩

/-- C3 witness: the amended theorem applied to the two-end-marker input. -/
theorem c3_witness :
    5 < (twoEndInput.drop 1).length ∧
    is_end ((twoEndInput.drop 1).getD 5 []) = true :=
  c3_end_is_end_marker (twoEndInput.drop 1) 5 (by decide)

/-! ### Claim C4 -/

/-- C4: evaluating the program on an input with a start marker but no
end-marker line anywhere.  The global `end` is never assigned, so after the
chunk report the `ends at line:` statement raises `NameError` (uncaught:
traceback on stderr, exit status 1) instead of the distinct `no end marker`
error the specification requires. -/
theorem c4_no_end_marker_crashes :
    run noEndInput =
      { stdout := [Out.readCount 1, Out.startsAt 1, Out.foundChunks 0,
          Out.gotFiltered 0],
        stderr := [nameErrorMsg],
        exitCode := 1 } := by
  decide

/-! ### Claims C6 and C7 -/

theorem rep_tail_free (l : List (Nat × List Char)) :
    ((l.flatMap fun p => [Out.chunkHeader p.1, Out.chunkBody p.2, Out.blank]).filterMap
      fun o => match o with | Out.tailLine t => some t | _ => none) = [] := by
  induction l with
  | nil => rfl
  | cons p l ih =>
    simp only [List.flatMap_cons, List.filterMap_append, ih, List.filterMap_cons]
    rfl

/-- C6 counterexample: in `twoEndInput` the first register-dump line of the
body sits at body index 2 (absolute line index 3), but the tail is emitted
from the RECORDED end index (the last end-marker boundary reached, absolute
index 6), so the emitted tail is not the input lines from the first
register-dump line onward. -/
theorem c6_counterexample :
    tailOf (run twoEndInput) = ["rbx 0x0\n".toList] ∧
    specFirstEnd (twoEndInput.drop 1) = some 2 ∧
    twoEndInput.drop 3 ≠ ["rbx 0x0\n".toList] := by
  decide

/-- C6 (amended): whenever a start index is found and the scan records an
end index, the tail lines emitted at the end of the output are exactly the
input lines from the RECORDED end index (the last end-marker boundary
reached by the scan, not necessarily the body's first register-dump line)
through the last line, terminators included, nothing added or removed. -/
theorem c6_tail_verbatim (lines : List (List Char)) (s erel : Nat)
    (h1 : find_start lines = some s)
    (h2 : (chunk_scan (lines.drop (s + 1))).2 = some erel) :
    tailOf (run lines) = lines.drop (s + 1 + erel) := by
  unfold run
  rw [h1]
  simp only [h2, tailOf]
  simp only [List.filterMap_append, List.filterMap_map]
  rw [rep_tail_free]
  simp only [List.filterMap_cons, List.filterMap_nil]
  simp [Function.comp_def]

/-- C6 witness: the tail of the well-formed example input is its register
line. -/
theorem c6_witness : tailOf (run okInput) = okInput.drop 3 :=
  c6_tail_verbatim okInput 0 2 (by decide) (by decide)

/-- C7: when no input line starts with `PC=`, the program prints only the
line count, writes the `no start marker` message to standard error, exits
with status 1, and emits no chunk report; and every run that finds both a
start index and an end index completes normally with exit status 0. -/
theorem c7_exit_status :
    (∀ lines : List (List Char),
      (∀ l ∈ lines, "PC=".toList.isPrefixOf l = false) →
      run lines =
        { stdout := [Out.readCount lines.length]
          stderr := [noStartMsg]
          exitCode := 1 }) ∧
    (∀ (lines : List (List Char)) (s erel : Nat),
      find_start lines = some s →
      (chunk_scan (lines.drop (s + 1))).2 = some erel →
      (run lines).exitCode = 0) := by
  constructor
  · intro lines h
    unfold run
    rw [find_start_eq_none lines h]
  · intro lines s erel h1 h2
    unfold run
    rw [h1]
    simp only [h2]

/-- C7 witness: a start-marker-free input fails with status 1 and only the
count on standard output, and a well-formed input exits with status 0. -/
theorem c7_witness :
    run noStartInput =
      { stdout := [Out.readCount 1]
        stderr := [noStartMsg]
        exitCode := 1 } ∧
    (run okInput).exitCode = 0 :=
  ⟨c7_exit_status.1 noStartInput (by decide),
   c7_exit_status.2 okInput 0 2 (by decide) (by decide)⟩

/-! ### Scan structure lemmas (used by claims C5 and C8) -/

theorem bdy_of_chunk (l : List Char) (h : is_chunk l = true) : bdy l = true := by
  simp [bdy, h]

theorem chunk_not_of_bdy_not (l : List Char) (h : bdy l = false) :
    is_chunk l = false := by
  cases hc : is_chunk l
  · rfl
  · unfold bdy at h
    rw [hc] at h
    simp at h

theorem chunk_scan_cons_some (line : List Char) (rest : List (List Char))
    (chunk : List Char) (k : Nat) (hc : is_chunk line = true)
    (hi : chunk_inner rest line = some (chunk, k)) :
    (chunk_scan (line :: rest)).1 = chunk :: (chunk_scan rest).1 := by
  rw [chunk_scan, if_pos hc, hi]

theorem chunk_scan_cons_nochunk (line : List Char) (rest : List (List Char))
    (hc : is_chunk line = false) :
    (chunk_scan (line :: rest)).1 = (chunk_scan rest).1 := by
  rw [chunk_scan, if_neg (by simp [hc])]

theorem chunk_scan_cons_noinner (line : List Char) (rest : List (List Char))
    (hc : is_chunk line = true) (hi : chunk_inner rest line = none) :
    (chunk_scan (line :: rest)).1 = (chunk_scan rest).1 := by
  rw [chunk_scan, if_pos hc, hi]

theorem chunk_inner_some (rest : List (List Char)) (c c' : List Char) (k : Nat)
    (h : chunk_inner rest c = some (c', k)) :
    c' = c ++ (rest.take k).flatten ∧ k < rest.length ∧
    bdy (rest.getD k []) = true ∧ ∀ j, j < k → bdy (rest.getD j []) = false := by
  induction rest generalizing c c' k with
  | nil => simp [chunk_inner] at h
  | cons jline rest ih =>
    cases hb : (is_chunk jline || is_end jline) with
    | true =>
      rw [chunk_inner, if_pos hb] at h
      simp only [Option.some.injEq, Prod.mk.injEq] at h
      obtain ⟨h1, h2⟩ := h
      subst h1; subst h2
      refine ⟨by simp, by simp, ?_, fun j hj => absurd hj (Nat.not_lt_zero j)⟩
      simpa [bdy, List.getD_cons_zero] using hb
    | false =>
      rw [chunk_inner, if_neg (by simp [hb])] at h
      obtain ⟨⟨c'', k'⟩, hi, heq⟩ := Option.map_eq_some'.mp h
      simp only [Prod.mk.injEq] at heq
      obtain ⟨h1, h2⟩ := heq
      subst h1; subst h2
      obtain ⟨ha, hb', hcb, hint⟩ := ih (c ++ jline) c'' k' hi
      refine ⟨?_, by simpa using Nat.succ_lt_succ hb',
        by simpa [List.getD_cons_succ] using hcb, ?_⟩
      · rw [ha]
        simp [List.take_succ_cons, List.flatten_cons, List.append_assoc]
      · intro j hj
        cases j with
        | zero => simpa [bdy, List.getD_cons_zero] using hb
        | succ j' =>
          rw [List.getD_cons_succ]
          exact hint j' (Nat.lt_of_succ_lt_succ hj)

theorem scan_skip (t r : List (List Char)) (ht : ∀ l ∈ t, is_chunk l = false) :
    (chunk_scan (t ++ r)).1 = (chunk_scan r).1 := by
  induction t with
  | nil => rfl
  | cons x t ih =>
    rw [List.cons_append,
      chunk_scan_cons_nochunk x (t ++ r) (ht x (List.mem_cons_self x t))]
    exact ih (fun l hl => ht l (List.mem_cons_of_mem x hl))

theorem shift_ivls (line : List Char) (rest : List (List Char))
    (ivls : List (Nat × Nat))
    (hmap : (chunk_scan rest).1 =
      ivls.map (fun p => ((rest.drop p.1).take (p.2 - p.1)).flatten))
    (hchain : List.Chain' (fun p q : Nat × Nat => p.2 ≤ q.1) ivls)
    (hfacts : ∀ p ∈ ivls, p.1 < p.2 ∧ p.2 < rest.length ∧
      is_chunk (rest.getD p.1 []) = true ∧ bdy (rest.getD p.2 []) = true ∧
      ∀ j, p.1 < j → j < p.2 → bdy (rest.getD j []) = false) :
    ((chunk_scan rest).1 =
      (ivls.map fun p => (p.1 + 1, p.2 + 1)).map
        (fun p => (((line :: rest).drop p.1).take (p.2 - p.1)).flatten)) ∧
    List.Chain' (fun p q : Nat × Nat => p.2 ≤ q.1)
      (ivls.map fun p => (p.1 + 1, p.2 + 1)) ∧
    ∀ p ∈ (ivls.map fun p => (p.1 + 1, p.2 + 1)), p.1 < p.2 ∧
      p.2 < (line :: rest).length ∧
      is_chunk ((line :: rest).getD p.1 []) = true ∧
      bdy ((line :: rest).getD p.2 []) = true ∧
      ∀ j, p.1 < j → j < p.2 → bdy ((line :: rest).getD j []) = false := by
  refine ⟨?_, ?_, ?_⟩
  · rw [List.map_map, hmap]
    apply List.map_congr_left
    intro q hq
    simp only [Function.comp_apply, List.drop_succ_cons, Nat.succ_sub_succ]
  · rw [List.chain'_map]
    exact hchain.imp (fun a b hab => Nat.succ_le_succ hab)
  · intro p hp
    obtain ⟨q, hq, rfl⟩ := List.mem_map.mp hp
    obtain ⟨f1, f2, f3, f4, f5⟩ := hfacts q hq
    refine ⟨Nat.succ_lt_succ f1, by simpa using Nat.succ_lt_succ f2,
      by simpa [List.getD_cons_succ] using f3,
      by simpa [List.getD_cons_succ] using f4, ?_⟩
    intro j hj1 hj2
    cases j with
    | zero => exact absurd hj1 (Nat.not_lt_zero _)
    | succ j' =>
      rw [List.getD_cons_succ]
      exact f5 j' (Nat.lt_of_succ_lt_succ hj1) (Nat.lt_of_succ_lt_succ hj2)

/-- Structural description of the scanned chunks: each chunk is the
concatenation of a contiguous run of body lines that begins at a
chunk-header line and ends just before the next boundary line, the runs are
pairwise disjoint and ordered by first appearance, and no interior line of a
run is a boundary. -/
theorem chunk_scan_partition (body : List (List Char)) :
    ∃ ivls : List (Nat × Nat),
      (chunk_scan body).1 =
        ivls.map (fun p => ((body.drop p.1).take (p.2 - p.1)).flatten) ∧
      List.Chain' (fun p q : Nat × Nat => p.2 ≤ q.1) ivls ∧
      ∀ p ∈ ivls, p.1 < p.2 ∧ p.2 < body.length ∧
        is_chunk (body.getD p.1 []) = true ∧
        bdy (body.getD p.2 []) = true ∧
        ∀ j, p.1 < j → j < p.2 → bdy (body.getD j []) = false := by
  induction body with
  | nil =>
    refine ⟨[], by simp [chunk_scan], List.chain'_nil, by simp⟩
  | cons line rest ih =>
    obtain ⟨ivls, hmap, hchain, hfacts⟩ := ih
    by_cases hc : is_chunk line = true
    · cases hinner : chunk_inner rest line with
      | none =>
        obtain ⟨hm', hch', hf'⟩ := shift_ivls line rest ivls hmap hchain hfacts
        refine ⟨ivls.map (fun p => (p.1 + 1, p.2 + 1)), ?_, hch', hf'⟩
        rw [chunk_scan_cons_noinner line rest hc hinner]
        exact hm'
      | some p =>
        obtain ⟨chunk, k⟩ := p
        obtain ⟨hck, hkl, hbk, hbint⟩ := chunk_inner_some rest line chunk k hinner
        obtain ⟨hm', hch', hf'⟩ := shift_ivls line rest ivls hmap hchain hfacts
        refine ⟨(0, k + 1) :: ivls.map (fun p => (p.1 + 1, p.2 + 1)), ?_, ?_, ?_⟩
        · have hhead : chunk = (((line :: rest).drop 0).take (k + 1 - 0)).flatten := by
            rw [hck]
            simp [List.take_succ_cons, List.flatten_cons]
          rw [chunk_scan_cons_some line rest chunk k hc hinner]
          simp only [List.map_cons]
          rw [← hhead, hm']
        · rw [List.chain'_cons']
          refine ⟨?_, hch'⟩
          intro y hy
          obtain ⟨q, hq, rfl⟩ := List.mem_map.mp (List.mem_of_mem_head? hy)
          show k + 1 ≤ q.1 + 1
          by_contra hlt
          have hq1k : q.1 < k := by omega
          have := hbint q.1 hq1k
          have hcq := (hfacts q hq).2.2.1
          rw [chunk_not_of_bdy_not _ this] at hcq
          exact Bool.noConfusion hcq
        · intro p hp
          rcases List.mem_cons.mp hp with rfl | hp'
          · refine ⟨Nat.succ_pos k, by simpa using Nat.succ_lt_succ hkl,
              by simpa [List.getD_cons_zero] using hc,
              by simpa [List.getD_cons_succ] using hbk, ?_⟩
            intro j hj1 hj2
            cases j with
            | zero => exact absurd hj1 (Nat.not_lt_zero _)
            | succ j' =>
              rw [List.getD_cons_succ]
              exact hbint j' (Nat.lt_of_succ_lt_succ hj2)
          · exact hf' p hp'
    · obtain ⟨hm', hch', hf'⟩ := shift_ivls line rest ivls hmap hchain hfacts
      refine ⟨ivls.map (fun p => (p.1 + 1, p.2 + 1)), ?_, hch', hf'⟩
      rw [chunk_scan_cons_nochunk line rest (Bool.of_not_eq_true hc)]
      exact hm'

/-! ### Claim C5 -/

/-- C5 counterexample: in `gapInput` the body is
`x / goroutine ... / y / rax ...`; its first line `x` precedes the first
chunk header and belongs to no chunk, so concatenating the chunks (plus any
dropped trailing partial chunk) cannot reproduce the body lines before the
end marker — the concatenation is not even a prefix of them. -/
theorem c5_counterexample :
    (chunk_scan (gapInput.drop 1)).1 =
      ["goroutine 1 [running]:\ny\n".toList] ∧
    (chunk_scan (gapInput.drop 1)).2 = some 3 ∧
    ((chunk_scan (gapInput.drop 1)).1.flatten).isPrefixOf
      (((gapInput.drop 1).take 3).flatten) = false := by
  decide

/-- C5 (amended): the chunks are non-overlapping contiguous segments of the
body, ordered by first appearance, each the concatenation of a run that
starts at a chunk-header line and stops just before the next boundary line —
but they need not cover the body: lines before the first chunk header,
boundary end-marker lines, lines between an end marker and the next header,
and a trailing partial chunk belong to no chunk. -/
theorem c5_chunks_segment_body (body : List (List Char)) :
    ∃ ivls : List (Nat × Nat),
      (chunk_scan body).1 =
        ivls.map (fun p => ((body.drop p.1).take (p.2 - p.1)).flatten) ∧
      List.Chain' (fun p q : Nat × Nat => p.2 ≤ q.1) ivls ∧
      ∀ p ∈ ivls, p.1 < p.2 ∧ p.2 < body.length ∧
        is_chunk (body.getD p.1 []) = true ∧
        bdy (body.getD p.2 []) = true ∧
        ∀ j, p.1 < j → j < p.2 → bdy (body.getD j []) = false :=
  chunk_scan_partition body

/-- C5 witness: the segment description instantiated at the gap input's
body. -/
theorem c5_witness :
    ∃ ivls : List (Nat × Nat),
      (chunk_scan (gapInput.drop 1)).1 =
        ivls.map (fun p =>
          (((gapInput.drop 1).drop p.1).take (p.2 - p.1)).flatten) ∧
      List.Chain' (fun p q : Nat × Nat => p.2 ≤ q.1) ivls ∧
      ∀ p ∈ ivls, p.1 < p.2 ∧ p.2 < (gapInput.drop 1).length ∧
        is_chunk ((gapInput.drop 1).getD p.1 []) = true ∧
        bdy ((gapInput.drop 1).getD p.2 []) = true ∧
        ∀ j, p.1 < j → j < p.2 → bdy ((gapInput.drop 1).getD j []) = false :=
  c5_chunks_segment_body (gapInput.drop 1)

/-! ### Line round-trip lemmas (claim C8) -/

theorem linesOf_proper_append (w : List Char) (hw : '\n' ∉ w) (s : List Char) :
    linesOf ((w ++ ['\n']) ++ s) = (w ++ ['\n']) :: linesOf s := by
  induction w with
  | nil => simp [linesOf]
  | cons c w ih =>
    have hc : ¬ (c = '\n') := fun h => hw (h ▸ List.mem_cons_self c w)
    have hw' : '\n' ∉ w := fun h => hw (List.mem_cons_of_mem c h)
    rw [List.cons_append, List.cons_append, linesOf]
    rw [if_neg hc, ih hw']

theorem linesOf_flatten (B : List (List Char)) (hB : ∀ l ∈ B, proper l) :
    linesOf B.flatten = B := by
  induction B with
  | nil => rfl
  | cons l B ih =>
    obtain ⟨w, hl, hw⟩ := hB l (List.mem_cons_self l B)
    subst hl
    rw [List.flatten_cons, linesOf_proper_append w hw,
      ih (fun x hx => hB x (List.mem_cons_of_mem _ hx))]

theorem kept_chunks_none (lines : List (List Char))
    (h : find_start lines = none) : kept_chunks lines = [] := by
  unfold kept_chunks
  rw [h]

theorem kept_chunks_some (lines : List (List Char)) (s : Nat)
    (h : find_start lines = some s) :
    kept_chunks lines =
      ((chunk_scan (lines.drop (s + 1))).1).filter filter_chunk := by
  unfold kept_chunks
  rw [h]

theorem chunk_inner_through (t : List (List Char))
    (ht : ∀ l ∈ t, bdy l = false) (r : List (List Char)) (hr : r ≠ [])
    (hb : bdy (r.headD []) = true) :
    ∀ c : List Char, chunk_inner (t ++ r) c = some (c ++ t.flatten, t.length) := by
  induction t with
  | nil =>
    intro c
    cases r with
    | nil => exact absurd rfl hr
    | cons y r' =>
      rw [List.nil_append, chunk_inner,
        if_pos (by simpa [bdy, List.headD] using hb)]
      simp
  | cons x t ih =>
    intro c
    have hx : (is_chunk x || is_end x) = false := by
      simpa [bdy] using ht x (List.mem_cons_self x t)
    rw [List.cons_append, chunk_inner, if_neg (by simp [hx]),
      ih (fun l hl => ht l (List.mem_cons_of_mem x hl)) (c ++ x)]
    simp [List.flatten_cons, List.append_assoc]

theorem blocks_head_bdy (K : List (List Char)) (hK : ∀ c ∈ K, wfChunk c) :
    K.flatMap linesOf ++ ["rax 0x0\n".toList] ≠ [] ∧
    bdy ((K.flatMap linesOf ++ ["rax 0x0\n".toList]).headD []) = true := by
  cases K with
  | nil =>
    refine ⟨by simp, ?_⟩
    simp only [List.flatMap_nil, List.nil_append, List.headD]
    decide
  | cons c K' =>
    obtain ⟨hflat, hd, tl, hsplit, hhd, htl⟩ := hK c (List.mem_cons_self c K')
    rw [List.flatMap_cons, hsplit]
    refine ⟨by simp, ?_⟩
    rw [List.cons_append, List.cons_append]
    exact bdy_of_chunk hd hhd

theorem scan_blocks (K : List (List Char)) :
    (∀ c ∈ K, wfChunk c) →
    (chunk_scan (K.flatMap linesOf ++ ["rax 0x0\n".toList])).1 = K := by
  induction K with
  | nil =>
    intro _
    simp only [List.flatMap_nil, List.nil_append]
    rw [chunk_scan_cons_nochunk _ _ (by decide)]
    rfl
  | cons c K' ih =>
    intro hK
    obtain ⟨hflat, hd, tl, hsplit, hhd, htl⟩ := hK c (List.mem_cons_self c K')
    have hK' : ∀ x ∈ K', wfChunk x := fun x hx => hK x (List.mem_cons_of_mem c hx)
    obtain ⟨hne, hbhead⟩ := blocks_head_bdy K' hK'
    have hchunk : hd ++ tl.flatten = c := by
      rw [← hflat, hsplit, List.flatten_cons]
    rw [List.flatMap_cons, List.append_assoc, hsplit, List.cons_append]
    rw [chunk_scan_cons_some hd (tl ++ (K'.flatMap linesOf ++ ["rax 0x0\n".toList]))
      (hd ++ tl.flatten) tl.length hhd
      (chunk_inner_through tl htl _ hne hbhead hd)]
    rw [scan_skip tl _ (fun l hl => chunk_not_of_bdy_not l (htl l hl))]
    rw [ih hK', hchunk]

/-! ### Transfer of the readlines invariant to scanned chunks (claim C8) -/

theorem mem_dropLast_of_get (xs : List (List Char)) (i : Nat) (a : List Char)
    (h : xs[i]? = some a) (hi : i + 1 < xs.length) : a ∈ xs.dropLast := by
  rw [List.dropLast_eq_take]
  exact List.getElem?_mem
    (by rw [List.getElem?_take, if_pos (by omega), h] : (xs.take (xs.length - 1))[i]? = some a)

theorem mem_dropLast_drop (xs : List (List Char)) (n : Nat) (a : List Char)
    (h : a ∈ (xs.drop n).dropLast) : a ∈ xs.dropLast := by
  rw [List.dropLast_eq_take] at h
  obtain ⟨i, hi⟩ := List.mem_iff_getElem?.mp h
  rw [List.getElem?_take] at hi
  by_cases hlt : i < (xs.drop n).length - 1
  · rw [if_pos hlt, List.getElem?_drop] at hi
    have hxl : (xs.drop n).length = xs.length - n := List.length_drop n xs
    exact mem_dropLast_of_get xs (n + i) a hi (by omega)
  · rw [if_neg hlt] at hi
    exact absurd hi (by simp)

theorem scanned_wf (body : List (List Char))
    (hbody : ∀ l ∈ body.dropLast, proper l) :
    ∀ c ∈ (chunk_scan body).1, wfChunk c := by
  intro c hc
  obtain ⟨ivls, hmap, _, hfacts⟩ := chunk_scan_partition body
  rw [hmap] at hc
  obtain ⟨p, hp, rfl⟩ := List.mem_map.mp hc
  obtain ⟨h1, h2, h3, h4, h5⟩ := hfacts p hp
  have hget : ∀ i, i < p.2 - p.1 →
      ((body.drop p.1).take (p.2 - p.1))[i]? = body[p.1 + i]? := by
    intro i hi
    rw [List.getElem?_take, if_pos hi, List.getElem?_drop]
  have hlen : ((body.drop p.1).take (p.2 - p.1)).length = p.2 - p.1 := by
    rw [List.length_take, List.length_drop]
    omega
  have hprop : ∀ l ∈ (body.drop p.1).take (p.2 - p.1), proper l := by
    intro l hl
    obtain ⟨i, hi⟩ := List.mem_iff_getElem?.mp hl
    have hilen : i < p.2 - p.1 := by
      by_contra hig
      rw [List.getElem?_eq_none (by omega)] at hi
      exact Option.noConfusion hi
    rw [hget i hilen] at hi
    exact hbody l (mem_dropLast_of_get body (p.1 + i) l hi (by omega))
  have hlines := linesOf_flatten _ hprop
  cases hslc : (body.drop p.1).take (p.2 - p.1) with
  | nil => rw [hslc] at hlen; simp at hlen; omega
  | cons hd tl =>
    have hhd : body[p.1]? = some hd := by
      have h0 : ((body.drop p.1).take (p.2 - p.1))[0]? = some hd := by
        rw [hslc]; simp
      rw [hget 0 (by omega), Nat.add_zero] at h0
      exact h0
    rw [hslc] at hlines
    refine ⟨by rw [hlines, ← hslc], hd, tl, by rw [hlines], ?_, ?_⟩
    · have : body.getD p.1 [] = hd := by
        rw [List.getD_eq_getElem?_getD, hhd]
        rfl
      rw [← this]
      exact h3
    · intro l hl
      obtain ⟨i, hi⟩ := List.mem_iff_getElem?.mp hl
      have hsl : ((body.drop p.1).take (p.2 - p.1))[i + 1]? = some l := by
        rw [hslc, List.getElem?_cons_succ]
        exact hi
      have hi2 : i + 1 < p.2 - p.1 := by
        by_contra hig
        rw [List.getElem?_eq_none (by omega)] at hsl
        exact Option.noConfusion hsl
      rw [hget (i + 1) hi2] at hsl
      have hbd := h5 (p.1 + (i + 1)) (by omega) (by omega)
      have : body.getD (p.1 + (i + 1)) [] = l := by
        rw [List.getD_eq_getElem?_getD, hsl]
        rfl
      rw [this] at hbd
      exact hbd

/-! ### Claim C8 -/

/-- C8: filtering is idempotent — for every input satisfying the `readlines`
invariant (every line except possibly the last is newline-terminated with no
inner newline), re-running the program on its own kept chunks, re-wrapped
between a synthetic start-marker line and a synthetic end-marker line,
yields exactly the same kept chunks. -/
theorem c8_filter_idempotent (lines : List (List Char))
    (hp : ∀ l ∈ lines.dropLast, proper l) :
    kept_chunks (rewrap (kept_chunks lines)) = kept_chunks lines := by
  have hwf : ∀ c ∈ kept_chunks lines, wfChunk c := by
    intro c hc
    cases hfs : find_start lines with
    | none => rw [kept_chunks_none lines hfs] at hc; exact absurd hc (by simp)
    | some s =>
      rw [kept_chunks_some lines s hfs] at hc
      refine scanned_wf _ ?_ c (List.mem_of_mem_filter hc)
      intro l hl
      exact hp l (mem_dropLast_drop lines (s + 1) l hl)
  have hkeep : ∀ c ∈ kept_chunks lines, filter_chunk c = true := by
    intro c hc
    cases hfs : find_start lines with
    | none => rw [kept_chunks_none lines hfs] at hc; exact absurd hc (by simp)
    | some s =>
      rw [kept_chunks_some lines s hfs] at hc
      exact List.of_mem_filter hc
  have hfs2 : find_start (rewrap (kept_chunks lines)) = some 0 := by
    unfold rewrap find_start
    rw [if_pos (by decide)]
  rw [kept_chunks_some (rewrap (kept_chunks lines)) 0 hfs2]
  have hdrop : (rewrap (kept_chunks lines)).drop 1 =
      (kept_chunks lines).flatMap linesOf ++ ["rax 0x0\n".toList] := rfl
  rw [hdrop, scan_blocks _ hwf, List.filter_eq_self.mpr hkeep]

/-- C8 witness: idempotence at the well-formed example input. -/
theorem c8_witness :
    kept_chunks (rewrap (kept_chunks okInput)) = kept_chunks okInput := by
  apply c8_filter_idempotent
  intro l hl
  have hdl : okInput.dropLast =
      ["PC=0x1\n".toList, "goroutine 1 [running]:\n".toList,
       "github.com/purpleidea/mgmt/foo.go:1\n".toList] := by decide
  rw [hdl] at hl
  rcases List.mem_cons.mp hl with rfl | hl
  · exact ⟨"PC=0x1".toList, by decide, by decide⟩
  rcases List.mem_cons.mp hl with rfl | hl
  · exact ⟨"goroutine 1 [running]:".toList, by decide, by decide⟩
  rcases List.mem_cons.mp hl with rfl | hl
  · exact ⟨"github.com/purpleidea/mgmt/foo.go:1".toList, by decide, by decide⟩
  · exact absurd hl (by simp)

end FilterStack
